import Mathlib

/-!
Shallow embedding of `app.py` (CSV/Excel merger).

The script is a Streamlit page; its session state and the handlers that run
on each interaction are modelled as pure functions on an explicit
`SessionState`.  Tables (pandas DataFrames) are modelled as a header list
plus a list of rows of string cells; external pandas parsing is abstracted
as a per-file parse outcome carried by the uploaded file (the spec treats
`parse(bytes, format) -> Table | ParseError` as an external collaborator).
-/

/-- Model of a parsed pandas DataFrame: an ordered list of column names and
a list of rows, each row an ordered list of cell values (cells as strings;
a missing cell after alignment is modelled as `""`, standing for NaN). -/
structure Table where
  columns : List String
  rows : List (List String)
deriving DecidableEq, Repr, Inhabited

/-- Model of one element of `uploaded_files`: the file's name together with
the outcome pandas would produce when parsing its bytes with the reader
selected by its extension (`pd.read_csv` / `pd.read_excel`).  The parsing
itself is external to the source (spec §6 collaborator interface), so it is
carried as data. -/
structure RawFile where
  name : String
  parse : Except String Table
deriving Repr

instance : DecidableEq (Except String Table) := fun a b =>
  match a, b with
  | .ok x, .ok y =>
    if h : x = y then .isTrue (by rw [h]) else .isFalse (by simp [h])
  | .error x, .error y =>
    if h : x = y then .isTrue (by rw [h]) else .isFalse (by simp [h])
  | .ok _, .error _ => .isFalse (by simp)
  | .error _, .ok _ => .isFalse (by simp)

/-- Python `str.endswith`: the candidate suffix matches the final
characters of the string. -/
def strEndsWith (s suffix : String) : Bool :=
  suffix.data.isSuffixOf s.data

/-- Embedding of `read_file` (app.py lines 24-35).  The Python function
returns a `(df, error)` pair with exactly one component set; that is
rendered as `Except String Table`. -/
def read_file (f : RawFile) : Except String Table :=
  if strEndsWith f.name ".csv" then
    match f.parse with
    | .ok df => .ok df
    | .error e => .error ("Error reading " ++ f.name ++ ": " ++ e)
  else if strEndsWith f.name ".xlsx" || strEndsWith f.name ".xls" then
    match f.parse with
    | .ok df => .ok df
    | .error e => .error ("Error reading " ++ f.name ++ ": " ++ e)
  else
    .error ("Unsupported file format: " ++ f.name)

/-- Column signatures: the value of `tuple(sorted(columns))`. -/
abbrev ColumnSignature := List String

/-- Lexicographic comparison of character sequences by code point: the
order Python string comparison uses. -/
def charListLe : List Char → List Char → Bool
  | [], _ => true
  | _ :: _, [] => false
  | a :: as, b :: bs =>
    if a.toNat < b.toNat then true
    else if b.toNat < a.toNat then false
    else charListLe as bs

/-- Python string `<=`: code-point lexicographic order on the character
data. -/
def strLe (a b : String) : Bool := charListLe a.data b.data

/-- Embedding of `get_column_signature` (app.py lines 38-40):
`tuple(sorted(columns))`.  Python `sorted` sorts strings by code-point
lexicographic order (`strLe`). -/
def get_column_signature (columns : List String) : ColumnSignature :=
  List.insertionSort (fun a b => strLe a b) columns

/-- Signature of one `files_data` entry, as computed inside the grouping
loop: `get_column_signature(df.columns.tolist())`. -/
def entrySignature (p : String × Table) : ColumnSignature :=
  get_column_signature p.2.columns

/-- Appending `filename` to the group keyed by `sig`, creating the group at
the end when absent: the behaviour of `groups[signature].append(filename)`
on a `defaultdict(list)` (Python dicts keep key insertion order). -/
def insertGroup (groups : List (ColumnSignature × List String))
    (sig : ColumnSignature) (filename : String) :
    List (ColumnSignature × List String) :=
  match groups with
  | [] => [(sig, [filename])]
  | g :: rest =>
    if g.1 = sig then (g.1, g.2 ++ [filename]) :: rest
    else g :: insertGroup rest sig filename

/-- Embedding of `group_files_by_columns` (app.py lines 43-49): fold the
insertion-ordered `files_data` mapping, appending each filename to the
group of its column signature. -/
def group_files_by_columns (files_data : List (String × Table)) :
    List (ColumnSignature × List String) :=
  files_data.foldl (fun gs p => insertGroup gs (entrySignature p) p.1) []

/-- Lookup of a group's file list by its signature key (Python
`column_groups[signature]`, `[]` when absent). -/
def groupLookup : List (ColumnSignature × List String) → ColumnSignature →
    List String
  | [], _ => []
  | g :: rest, sig => if g.1 = sig then g.2 else groupLookup rest sig

/-- Python dict assignment `data[name] = df`: replace in place when the key
exists, append otherwise. -/
def dictInsert (d : List (String × Table)) (k : String) (v : Table) :
    List (String × Table) :=
  match d with
  | [] => [(k, v)]
  | p :: rest => if p.1 = k then (k, v) :: rest else p :: dictInsert rest k v

/-- One iteration of the upload loop (app.py lines 80-87): on error the
message is appended to `errors`, otherwise the DataFrame is stored under
the file's name. -/
def uploadStep (acc : List (String × Table) × List String) (f : RawFile) :
    List (String × Table) × List String :=
  match read_file f with
  | .ok df => (dictInsert acc.1 f.name df, acc.2)
  | .error e => (acc.1, acc.2 ++ [e])

/-- Embedding of the upload processing loop (app.py lines 74-87): starting
from a fresh empty `uploaded_files_data` and `errors`, process every
uploaded file in order.  Returns the parsed-tables mapping and the error
list. -/
def processUploads (files : List RawFile) :
    List (String × Table) × List String :=
  files.foldl uploadStep ([], [])

/-- Pandas `to_csv` minimal quoting: a cell containing the delimiter, a
double quote or a line break is wrapped in double quotes with embedded
double quotes doubled; every other cell is written as-is. -/
def csvCell (s : String) : String :=
  if s.data.any (fun c => c == ',' || c == '"' || c == '\n' || c == '\r')
  then
    "\"" ++
      String.mk (s.data.flatMap (fun c =>
        if c == '"' then ['"', '"'] else [c])) ++ "\""
  else s

/-- Embedding of `convert_df_to_csv` (app.py lines 52-54):
`df.to_csv(index=False)` — header row of comma-joined column names, then
one comma-joined line per row, each line newline-terminated, no index
column, cells quoted minimally as pandas does. -/
def convert_df_to_csv (df : Table) : String :=
  String.intercalate "," (df.columns.map csvCell) ++ "\n" ++
    String.join (df.rows.map (fun r =>
      String.intercalate "," (r.map csvCell) ++ "\n"))

/-- Model of the byte content of the workbook written by
`convert_df_to_excel`: a single sheet named "Merged Data" holding the
header row and the data rows, no index column, together with the workbook
metadata openpyxl writes into the bytes — the `docProps/core.xml`
created/modified properties, which openpyxl fills with the wall-clock
time of the call (`datetime.datetime.now()`). -/
structure ExcelBytes where
  sheetName : String
  header : List String
  dataRows : List (List String)
  createdStamp : Nat
  modifiedStamp : Nat
deriving DecidableEq, Repr

/-- Embedding of `convert_df_to_excel` (app.py lines 57-62):
`pd.ExcelWriter(engine='openpyxl')` serializes the sheet content and
stamps the current wall-clock time `now` into the workbook metadata, so
the produced bytes are a function of the DataFrame and the call time. -/
def convert_df_to_excel (df : Table) (now : Nat) : ExcelBytes :=
  { sheetName := "Merged Data", header := df.columns, dataRows := df.rows,
    createdStamp := now, modifiedStamp := now }

/-- The output-format radio choice (app.py lines 224-228). -/
inductive ExportFormat where
  | csv
  | excel
deriving DecidableEq, Repr

/-- Bytes handed to the download button: CSV text or workbook content. -/
inductive ExportOutput where
  | csvBytes (s : String)
  | excelBytes (w : ExcelBytes)
deriving DecidableEq, Repr

/-- Embedding of the download section (app.py lines 233-250): dispatch on
the chosen format to the matching converter, at wall-clock time `now`
(only the Excel converter consumes the time). -/
def exportTable (fmt : ExportFormat) (df : Table) (now : Nat) :
    ExportOutput :=
  match fmt with
  | .csv => .csvBytes (convert_df_to_csv df)
  | .excel => .excelBytes (convert_df_to_excel df now)

/-- Cell of `row` under column `c`, where `cols` names `row`'s cells in
order: pandas label-based alignment of one row.  Missing labels give `""`
(NaN). -/
def lookupCell (cols : List String) (row : List String) (c : String) :
    String :=
  match cols, row with
  | c' :: cs, v :: vs => if c' = c then v else lookupCell cs vs c
  | _, _ => ""

/-- Column union in first-seen order: the non-concatenation axis of
`pd.concat` with the default `sort=False`. -/
def unionColumns (acc : List String) (cols : List String) : List String :=
  cols.foldl (fun a c => if c ∈ a then a else a ++ [c]) acc

/-- Embedding of `pd.concat(all_dfs, ignore_index=True)` (app.py line
204): result columns are the first frame's columns followed by new columns
in order of appearance; rows are all frames' rows in order, each aligned by
column label to the result columns; `ignore_index=True` gives a fresh
contiguous row index, modelled by the bare list position. -/
def pdConcat (dfs : List Table) : Table :=
  let cols := dfs.foldl (fun a t => unionColumns a t.columns) []
  { columns := cols,
    rows := dfs.flatMap
      (fun t => t.rows.map (fun r => cols.map (lookupCell t.columns r))) }

/-- The session state kept in `st.session_state` (app.py lines 12-21).
`uploaded_files_data` is an insertion-ordered dict, modelled as an
association list with unique keys. -/
structure SessionState where
  uploaded_files_data : List (String × Table)
  column_groups : List (ColumnSignature × List String)
  selected_group : Option ColumnSignature
  files_to_delete : List String
  merge_ready : Bool
deriving DecidableEq, Repr

/-- The initial session state (app.py lines 12-21). -/
def initState : SessionState :=
  { uploaded_files_data := [], column_groups := [], selected_group := none,
    files_to_delete := [], merge_ready := false }

/-- Embedding of the script run triggered by an upload (app.py lines
74-122): rebuild `uploaded_files_data` from scratch, collect errors; when
any file parsed, recompute `column_groups`; with exactly one group set
`merge_ready` and auto-select that group's signature
(`list(column_groups.keys())[0]`), otherwise clear `merge_ready` (the
group-selection UI then runs).  When no file parsed, the analysis section
does not run and the remaining fields keep their previous values. -/
def ingest (s : SessionState) (files : List RawFile) :
    SessionState × List String :=
  let pr := processUploads files
  if pr.1.isEmpty then
    ({ s with uploaded_files_data := pr.1 }, pr.2)
  else
    let groups := group_files_by_columns pr.1
    if groups.length = 1 then
      ({ s with uploaded_files_data := pr.1, column_groups := groups,
                merge_ready := true,
                selected_group := some groups.headI.1 }, pr.2)
    else
      ({ s with uploaded_files_data := pr.1, column_groups := groups,
                merge_ready := false }, pr.2)

/-- The error kinds of the spec's state-transition failures (spec §7).  The
source surfaces them by not running the guarded section (a lookup of an
absent key raises before any state is written); the model names the failed
condition. -/
inductive AppError where
  | invalidSelection
  | notReady
  | emptySet
deriving DecidableEq, Repr

/-- Embedding of the group-selection radio handler (app.py lines 146-155):
`st.session_state.selected_group = group_options[selected_group_name]`.
The radio's options are exactly the grouping's keys; a signature that is
not a key has no option and the lookup would raise before any state is
written, so the model returns the state unchanged together with the
error. -/
def selectGroup (s : SessionState) (sig : ColumnSignature) :
    SessionState × Option AppError :=
  if sig ∈ s.column_groups.map Prod.fst then
    ({ s with selected_group := some sig }, none)
  else
    (s, some .invalidSelection)

/-- The `excluded_files` computation (app.py lines 160-164): every file of
every group whose signature differs from the selected one, in group
order. -/
def excluded_files (groups : List (ColumnSignature × List String))
    (sel : ColumnSignature) : List String :=
  groups.foldl (fun acc g => if g.1 = sel then acc else acc ++ g.2) []

/-- Embedding of the confirm-button handler (app.py lines 180-187): delete
every excluded file from `uploaded_files_data` and set `merge_ready`. -/
def confirmSelection (s : SessionState) (sel : ColumnSignature) :
    SessionState :=
  let excluded := excluded_files s.column_groups sel
  { s with
    uploaded_files_data :=
      s.uploaded_files_data.filter (fun p => decide (p.1 ∉ excluded)),
    merge_ready := true }

/-- Embedding of the merge section guard and merge (app.py lines 190-204):
the section runs only when `merge_ready and uploaded_files_data` holds, and
then concatenates all stored DataFrames; it writes nothing back to the
session state.  When the guard fails nothing runs; the model returns the
unchanged state with the spec's name for the failed condition. -/
def mergeFiles (s : SessionState) :
    SessionState × Except AppError Table :=
  if s.uploaded_files_data.isEmpty then
    (s, .error .emptySet)
  else if s.merge_ready = false then
    (s, .error .notReady)
  else
    (s, .ok (pdConcat (s.uploaded_files_data.map Prod.snd)))

/-- Embedding of the reset handler (app.py lines 255-261). -/
def resetSession (_s : SessionState) : SessionState := initState

/-- Entry stored by the upload loop for a file whose read succeeds, and
nothing for a failing one. -/
def okEntry (f : RawFile) : Option (String × Table) :=
  match read_file f with
  | .ok df => some (f.name, df)
  | .error _ => none

/-- Error message recorded by the upload loop for a failing file, and
nothing for a successful one. -/
def errOf (f : RawFile) : Option String :=
  match read_file f with
  | .ok _ => none
  | .error e => some e

/-- Table with columns `id, name` (CSV `a.csv` of the spec's scenario). -/
def tblIdName : Table :=
  { columns := ["id", "name"], rows := [["1", "x"], ["2", "y"]] }

/-- Table with the same column set in the other order (`b.csv`). -/
def tblNameId : Table :=
  { columns := ["name", "id"],
    rows := [["u", "3"], ["v", "4"], ["w", "5"]] }

/-- Table with a different column set (`c.csv`). -/
def tblIdValue : Table :=
  { columns := ["id", "value"], rows := [["1", "9"]] }


/-! ### Order properties of the code-point lexicographic comparison -/

theorem charListLe_nil_right {a : Char} {as : List Char} :
    charListLe (a :: as) [] = false := rfl

theorem charListLe_cons_le {a b : Char} {as bs : List Char}
    (h : charListLe (a :: as) (b :: bs) = true) : a.toNat ≤ b.toNat := by
  by_cases h1 : a.toNat < b.toNat
  · omega
  · by_cases h2 : b.toNat < a.toNat
    · simp [charListLe, h1, h2] at h
    · omega

theorem charListLe_cons_tail {a b : Char} {as bs : List Char}
    (h : charListLe (a :: as) (b :: bs) = true) (heq : a.toNat = b.toNat) :
    charListLe as bs = true := by
  have h1 : ¬ a.toNat < b.toNat := by omega
  have h2 : ¬ b.toNat < a.toNat := by omega
  simpa [charListLe, h1, h2] using h

theorem charListLe_cons_of_lt {a b : Char} {as bs : List Char}
    (h : a.toNat < b.toNat) : charListLe (a :: as) (b :: bs) = true := by
  simp [charListLe, h]

theorem charListLe_cons_of_eq {a b : Char} {as bs : List Char}
    (heq : a.toNat = b.toNat) (h : charListLe as bs = true) :
    charListLe (a :: as) (b :: bs) = true := by
  have h1 : ¬ a.toNat < b.toNat := by omega
  have h2 : ¬ b.toNat < a.toNat := by omega
  simpa [charListLe, h1, h2] using h

theorem charListLe_total : ∀ as bs : List Char,
    charListLe as bs = true ∨ charListLe bs as = true := by
  intro as
  induction as with
  | nil => intro bs; left; rfl
  | cons a as ih =>
    intro bs
    cases bs with
    | nil => right; rfl
    | cons b bs =>
      rcases Nat.lt_trichotomy a.toNat b.toNat with h | h | h
      · exact Or.inl (charListLe_cons_of_lt h)
      · rcases ih bs with h' | h'
        · exact Or.inl (charListLe_cons_of_eq h h')
        · exact Or.inr (charListLe_cons_of_eq h.symm h')
      · exact Or.inr (charListLe_cons_of_lt h)

theorem charListLe_trans : ∀ as bs cs : List Char,
    charListLe as bs = true → charListLe bs cs = true →
    charListLe as cs = true := by
  intro as
  induction as with
  | nil => intro bs cs _ _; rfl
  | cons a as ih =>
    intro bs cs hab hbc
    cases bs with
    | nil => simp [charListLe_nil_right] at hab
    | cons b bs =>
      cases cs with
      | nil => simp [charListLe_nil_right] at hbc
      | cons c cs =>
        have l1 := charListLe_cons_le hab
        have l2 := charListLe_cons_le hbc
        by_cases hac : a.toNat < c.toNat
        · exact charListLe_cons_of_lt hac
        · have heac : a.toNat = c.toNat := by omega
          have heab : a.toNat = b.toNat := by omega
          have hebc : b.toNat = c.toNat := by omega
          exact charListLe_cons_of_eq heac
            (ih bs cs (charListLe_cons_tail hab heab)
              (charListLe_cons_tail hbc hebc))

theorem charListLe_antisymm : ∀ as bs : List Char,
    charListLe as bs = true → charListLe bs as = true → as = bs := by
  intro as
  induction as with
  | nil =>
    intro bs _ hba
    cases bs with
    | nil => rfl
    | cons b bs => simp [charListLe_nil_right] at hba
  | cons a as ih =>
    intro bs hab hba
    cases bs with
    | nil => simp [charListLe_nil_right] at hab
    | cons b bs =>
      have l1 := charListLe_cons_le hab
      have l2 := charListLe_cons_le hba
      have hnat : a.toNat = b.toNat := by omega
      have hchar : a = b := Char.ext (UInt32.ext hnat)
      rw [hchar, ih bs (charListLe_cons_tail hab (hchar ▸ rfl))
        (charListLe_cons_tail hba (hchar ▸ rfl))]

theorem strLe_total (a b : String) : strLe a b = true ∨ strLe b a = true :=
  charListLe_total a.data b.data

theorem strLe_trans {a b c : String} (hab : strLe a b = true)
    (hbc : strLe b c = true) : strLe a c = true :=
  charListLe_trans a.data b.data c.data hab hbc

theorem strLe_antisymm {a b : String} (hab : strLe a b = true)
    (hba : strLe b a = true) : a = b := by
  cases a with
  | mk da =>
    cases b with
    | mk db =>
      have : da = db := charListLe_antisymm da db hab hba
      rw [this]

/-! ### Properties of `get_column_signature` -/

/-- The signature is a permutation of the column list. -/
theorem get_column_signature_perm (l : List String) :
    List.Perm (get_column_signature l) l :=
  List.perm_insertionSort _ l

/-- Membership in the signature coincides with membership in the column
list: the signature is computed purely from the column names. -/
theorem mem_get_column_signature {x : String} {l : List String} :
    x ∈ get_column_signature l ↔ x ∈ l :=
  (get_column_signature_perm l).mem_iff

/-- The signature is sorted by the code-point order. -/
theorem get_column_signature_sorted (l : List String) :
    List.Sorted (fun a b => strLe a b = true) (get_column_signature l) := by
  haveI : IsTotal String (fun a b => strLe a b = true) := ⟨strLe_total⟩
  haveI : IsTrans String (fun a b => strLe a b = true) :=
    ⟨fun _ _ _ => strLe_trans⟩
  exact List.sorted_insertionSort _ l

/-- Duplicate-free column lists with the same elements have the same
signature: the signature ignores column order. -/
theorem get_column_signature_eq_of_mem_iff {l₁ l₂ : List String}
    (d₁ : l₁.Nodup) (d₂ : l₂.Nodup) (h : ∀ x, x ∈ l₁ ↔ x ∈ l₂) :
    get_column_signature l₁ = get_column_signature l₂ := by
  haveI : IsAntisymm String (fun a b => strLe a b = true) :=
    ⟨fun _ _ => strLe_antisymm⟩
  have hperm : List.Perm l₁ l₂ := (List.perm_ext_iff_of_nodup d₁ d₂).mpr h
  exact List.eq_of_perm_of_sorted
    ((get_column_signature_perm l₁).trans
      (hperm.trans (get_column_signature_perm l₂).symm))
    (get_column_signature_sorted l₁) (get_column_signature_sorted l₂)

/-! ### Grouping a same-signature working set -/

/-- Folding the grouping step over entries that all carry signature `s`
keeps a single group and appends every filename to it. -/
theorem foldl_insertGroup_same (d : List (String × Table))
    (s : ColumnSignature) :
    ∀ acc : List String, (∀ p ∈ d, entrySignature p = s) →
    d.foldl (fun gs p => insertGroup gs (entrySignature p) p.1) [(s, acc)] =
      [(s, acc ++ d.map Prod.fst)] := by
  induction d with
  | nil => intro acc _; simp
  | cons p rest ih =>
    intro acc h
    have hp : entrySignature p = s := h p (List.mem_cons_self p rest)
    have hstep : insertGroup [(s, acc)] (entrySignature p) p.1 =
        [(s, acc ++ [p.1])] := by
      simp [insertGroup, hp]
    simp only [List.foldl_cons, hstep]
    rw [ih (acc ++ [p.1]) (fun q hq => h q (List.mem_cons_of_mem p hq))]
    simp

/-- C1: for every mapping of file identifiers to parsed tables whose
column-name sets are equal as sets (the tables' column lists being
duplicate-free, as pandas parsing guarantees), `group_files_by_columns`
yields exactly one group, keyed by the canonical sorted signature and
containing all of the file identifiers; row content plays no role. -/
theorem grouping_equal_column_sets_single_group
    (files : List (String × Table)) (hne : files ≠ [])
    (hnd : ∀ p ∈ files, p.2.columns.Nodup)
    (hsub : ∀ p ∈ files, ∀ q ∈ files, ∀ x ∈ p.2.columns, x ∈ q.2.columns) :
    group_files_by_columns files =
      [(get_column_signature files.headI.2.columns, files.map Prod.fst)] := by
  cases files with
  | nil => exact absurd rfl hne
  | cons p rest =>
    have hall : ∀ q ∈ p :: rest, entrySignature q = entrySignature p := by
      intro q hq
      exact get_column_signature_eq_of_mem_iff
        (hnd q hq) (hnd p (List.mem_cons_self p rest))
        (fun x => ⟨fun hx => hsub q hq p (List.mem_cons_self p rest) x hx,
          fun hx => hsub p (List.mem_cons_self p rest) q hq x hx⟩)
    have hstep : insertGroup [] (entrySignature p) p.1 =
        [(entrySignature p, [p.1])] := rfl
    simp only [group_files_by_columns, List.foldl_cons, hstep]
    rw [foldl_insertGroup_same rest (entrySignature p)
      [p.1] (fun q hq => hall q (List.mem_cons_of_mem p hq))]
    simp [entrySignature]

/-- Witness for C1: two tables with the same column set in different order
land in one group under the sorted signature. -/
theorem grouping_equal_column_sets_single_group_witness :
    group_files_by_columns [("a.csv", tblIdName), ("b.csv", tblNameId)] =
      [(["id", "name"], ["a.csv", "b.csv"])] := by
  have h := grouping_equal_column_sets_single_group
    [("a.csv", tblIdName), ("b.csv", tblNameId)]
    (by simp) (by decide) (by decide)
  exact h.trans (by decide)

/-! ### Concatenation lemmas -/

/-- Columns already present are absorbed by the column union. -/
theorem unionColumns_absorb : ∀ (cols acc : List String),
    (∀ c ∈ cols, c ∈ acc) → unionColumns acc cols = acc := by
  intro cols
  induction cols with
  | nil => intro acc _; rfl
  | cons c cs ih =>
    intro acc h
    have hc : c ∈ acc := h c (List.mem_cons_self c cs)
    simp only [unionColumns, List.foldl_cons, if_pos hc]
    exact ih acc (fun x hx => h x (List.mem_cons_of_mem c hx))

/-- Entirely new duplicate-free columns are appended in order by the
column union. -/
theorem unionColumns_fresh : ∀ (cols acc : List String), cols.Nodup →
    (∀ c ∈ cols, c ∉ acc) → unionColumns acc cols = acc ++ cols := by
  intro cols
  induction cols with
  | nil => intro acc _ _; simp [unionColumns]
  | cons c cs ih =>
    intro acc hnd h
    have hc : c ∉ acc := h c (List.mem_cons_self c cs)
    simp only [unionColumns, List.foldl_cons, if_neg hc]
    have := ih (acc ++ [c]) (List.Nodup.of_cons hnd)
      (fun x hx => by
        simp only [List.mem_append, List.mem_singleton]
        rintro (hxa | hxc)
        · exact h x (List.mem_cons_of_mem c hx) hxa
        · exact (List.nodup_cons.mp hnd).1 (hxc ▸ hx))
    simpa [unionColumns] using this

/-- Folding the column union over frames whose columns all already occur
in the accumulator leaves it unchanged. -/
theorem foldl_unionColumns_absorb : ∀ (rest : List Table)
    (acc : List String), (∀ u ∈ rest, ∀ c ∈ u.columns, c ∈ acc) →
    rest.foldl (fun a t => unionColumns a t.columns) acc = acc := by
  intro rest
  induction rest with
  | nil => intro acc _; rfl
  | cons u us ih =>
    intro acc h
    simp only [List.foldl_cons,
      unionColumns_absorb u.columns acc (h u (List.mem_cons_self u us))]
    exact ih acc (fun v hv => h v (List.mem_cons_of_mem u hv))

/-- Result columns of `pd.concat`: the first frame's columns, when every
later frame's columns already occur among them. -/
theorem pdConcat_columns (t : Table) (rest : List Table)
    (hnd : t.columns.Nodup)
    (hsub : ∀ u ∈ rest, ∀ c ∈ u.columns, c ∈ t.columns) :
    (pdConcat (t :: rest)).columns = t.columns := by
  show (t :: rest).foldl (fun a u => unionColumns a u.columns) [] = t.columns
  simp only [List.foldl_cons]
  rw [unionColumns_fresh t.columns [] hnd (by simp)]
  simpa using foldl_unionColumns_absorb rest t.columns hsub

/-- Aligning a full-width row to its own duplicate-free column list is the
identity. -/
theorem map_lookupCell_self : ∀ (cols row : List String), cols.Nodup →
    row.length = cols.length → cols.map (lookupCell cols row) = row := by
  intro cols
  induction cols with
  | nil =>
    intro row _ hlen
    cases row with
    | nil => rfl
    | cons v vs => simp at hlen
  | cons c cs ih =>
    intro row hnd hlen
    cases row with
    | nil => simp at hlen
    | cons v vs =>
      have hnotin : c ∉ cs := (List.nodup_cons.mp hnd).1
      have hhead : lookupCell (c :: cs) (v :: vs) c = v := by
        simp [lookupCell]
      have htail : cs.map (lookupCell (c :: cs) (v :: vs)) =
          cs.map (lookupCell cs vs) := by
        apply List.map_congr_left
        intro x hx
        have hx' : c ≠ x := fun h => hnotin (h ▸ hx)
        simp [lookupCell, hx']
      rw [List.map_cons, hhead, htail,
        ih vs (List.Nodup.of_cons hnd) (by simpa using hlen)]

/-- C2: merging a non-empty working set of tables sharing one signature
concatenates them in insertion order: the row count is the sum of the
inputs' row counts, the column set equals the shared signature, the row
sequence is the ordered concatenation of each input's rows (each aligned
by column label to the merged column order), and when the inputs share the
column order literally the rows are the plain concatenation — no
deduplication, no sorting, with the fresh contiguous index modelled by
list position. -/
theorem merge_concatenates_in_order (dfs : List Table)
    (sig : ColumnSignature) (hne : dfs ≠ [])
    (hsig : ∀ t ∈ dfs, get_column_signature t.columns = sig)
    (hnd : ∀ t ∈ dfs, t.columns.Nodup)
    (hwf : ∀ t ∈ dfs, ∀ r ∈ t.rows, r.length = t.columns.length) :
    (pdConcat dfs).rows.length = (dfs.map fun t => t.rows.length).sum ∧
    get_column_signature (pdConcat dfs).columns = sig ∧
    (pdConcat dfs).rows = dfs.flatMap
      (fun t => t.rows.map fun r =>
        (pdConcat dfs).columns.map (lookupCell t.columns r)) ∧
    ((∀ t ∈ dfs, t.columns = dfs.headI.columns) →
      (pdConcat dfs).rows = (dfs.map Table.rows).flatten) := by
  cases dfs with
  | nil => exact absurd rfl hne
  | cons t rest =>
    have htmem : t ∈ t :: rest := List.mem_cons_self t rest
    have hsub : ∀ u ∈ rest, ∀ c ∈ u.columns, c ∈ t.columns := by
      intro u hu c hc
      have h1 : c ∈ get_column_signature u.columns :=
        mem_get_column_signature.mpr hc
      rw [hsig u (List.mem_cons_of_mem t hu), ← hsig t htmem] at h1
      exact mem_get_column_signature.mp h1
    have hcols : (pdConcat (t :: rest)).columns = t.columns :=
      pdConcat_columns t rest (hnd t htmem) hsub
    have hrows : (pdConcat (t :: rest)).rows = (t :: rest).flatMap
        (fun u => u.rows.map fun r =>
          (pdConcat (t :: rest)).columns.map (lookupCell u.columns r)) := rfl
    refine ⟨?_, ?_, hrows, ?_⟩
    · rw [hrows, List.flatMap_def, List.length_flatten, List.map_map]
      refine congrArg List.sum ?_
      apply List.map_congr_left
      intro u _
      simp [Function.comp]
    · rw [hcols]; exact hsig t htmem
    · intro hsame
      rw [hrows, List.flatMap_def]
      have hmaps : (t :: rest).map
          (fun u => u.rows.map fun r =>
            (pdConcat (t :: rest)).columns.map (lookupCell u.columns r)) =
          (t :: rest).map Table.rows := by
        apply List.map_congr_left
        intro u hu
        have hu' : u.columns = t.columns := by
          simpa using hsame u hu
        have hrow : u.rows.map (fun r =>
            (pdConcat (t :: rest)).columns.map (lookupCell u.columns r)) =
            u.rows.map id := by
          apply List.map_congr_left
          intro r hr
          rw [hcols, ← hu']
          exact map_lookupCell_self u.columns r (hu' ▸ hnd t htmem)
            (hwf u hu r hr)
        simpa using hrow
      rw [hmaps]

/-- Witness for C2 at the spec's concrete scenario: merging `a.csv`
(2 rows) with `b.csv` (3 rows, same columns reordered) yields 5 rows with
column set `id, name`. -/
theorem merge_concatenates_in_order_witness :
    (pdConcat [tblIdName, tblNameId]).rows.length = 5 ∧
    get_column_signature (pdConcat [tblIdName, tblNameId]).columns =
      ["id", "name"] := by
  have h := merge_concatenates_in_order [tblIdName, tblNameId]
    ["id", "name"] (by simp) (by decide) (by decide) (by decide)
  exact ⟨h.1.trans (by decide), h.2.1⟩

/-- C10: the merged table's column order is the column order of the first
table of the working set as parsed; the sorted signature is only the
grouping key and reorders no table. -/
theorem merge_preserves_first_table_column_order (dfs : List Table)
    (sig : ColumnSignature) (hne : dfs ≠ [])
    (hsig : ∀ t ∈ dfs, get_column_signature t.columns = sig)
    (hnd : dfs.headI.columns.Nodup) :
    (pdConcat dfs).columns = dfs.headI.columns := by
  cases dfs with
  | nil => exact absurd rfl hne
  | cons t rest =>
    have htmem : t ∈ t :: rest := List.mem_cons_self t rest
    have hsub : ∀ u ∈ rest, ∀ c ∈ u.columns, c ∈ t.columns := by
      intro u hu c hc
      have h1 : c ∈ get_column_signature u.columns :=
        mem_get_column_signature.mpr hc
      rw [hsig u (List.mem_cons_of_mem t hu), ← hsig t htmem] at h1
      exact mem_get_column_signature.mp h1
    exact pdConcat_columns t rest (by simpa using hnd) hsub

/-- Witness for C10: with `b.csv` first, the merged columns keep its
unsorted order `name, id`, which differs from the sorted grouping key. -/
theorem merge_preserves_first_table_column_order_witness :
    (pdConcat [tblNameId, tblIdName]).columns = ["name", "id"] ∧
    get_column_signature ["name", "id"] = ["id", "name"] := by
  have h := merge_preserves_first_table_column_order
    [tblNameId, tblIdName] ["id", "name"] (by simp) (by decide) (by decide)
  exact ⟨h.trans (by decide), by decide⟩

/-- C5: requesting a merge while the working set is empty fails with the
EmptySet error and returns the session state unchanged (the source's guard
`if merge_ready and uploaded_files_data:` skips the merge section, so
nothing is computed and nothing is written). -/
theorem merge_on_empty_working_set_fails (s : SessionState)
    (h : s.uploaded_files_data = []) :
    mergeFiles s = (s, Except.error AppError.emptySet) := by
  simp [mergeFiles, h]

/-- Witness for C5 at the initial session state. -/
theorem merge_on_empty_working_set_fails_witness :
    mergeFiles initState = (initState, Except.error AppError.emptySet) :=
  merge_on_empty_working_set_fails initState rfl

/-- C6: selecting a signature that is not a key of the current grouping
fails with the InvalidSelection error and returns the state — grouping
included — unchanged (the radio offers only the grouping's keys, and the
`group_options` lookup of an absent key raises before any assignment). -/
theorem select_invalid_signature_fails (s : SessionState)
    (sig : ColumnSignature) (h : sig ∉ s.column_groups.map Prod.fst) :
    selectGroup s sig = (s, some AppError.invalidSelection) := by
  simp [selectGroup, h]

/-- Witness for C6: selecting the absent signature `id, value` in a
session grouped only under `id, name`. -/
theorem select_invalid_signature_fails_witness :
    selectGroup
      { initState with
        uploaded_files_data := [("a.csv", tblIdName)],
        column_groups := [(["id", "name"], ["a.csv"])] } ["id", "value"] =
    ({ initState with
        uploaded_files_data := [("a.csv", tblIdName)],
        column_groups := [(["id", "name"], ["a.csv"])] },
      some AppError.invalidSelection) :=
  select_invalid_signature_fails _ _ (by decide)

/-- C9: the claim requires both encodings to be byte-for-byte
reproducible for identical input and format, but the code's Excel path is
not: `pd.ExcelWriter(engine='openpyxl')` stamps the wall-clock time of
the call into the workbook's created/modified metadata, so exporting the
spec-scenario merged table twice at different times yields different
bytes, while the CSV path is time-independent and reproducible. -/
theorem excel_export_not_byte_reproducible :
    exportTable ExportFormat.excel (pdConcat [tblIdName, tblNameId]) 0 ≠
      exportTable ExportFormat.excel (pdConcat [tblIdName, tblNameId]) 1
    ∧
    exportTable ExportFormat.csv (pdConcat [tblIdName, tblNameId]) 0 =
      exportTable ExportFormat.csv (pdConcat [tblIdName, tblNameId]) 1 := by
  exact ⟨by decide, rfl⟩

/-! ### Upload loop lemmas -/

/-- The upload loop appends exactly the per-file error messages, in file
order. -/
theorem foldl_uploadStep_errors : ∀ (files : List RawFile)
    (acc : List (String × Table) × List String),
    (files.foldl uploadStep acc).2 = acc.2 ++ files.filterMap errOf := by
  intro files
  induction files with
  | nil => intro acc; simp
  | cons f rest ih =>
    intro acc
    cases hrf : read_file f with
    | ok df =>
      have hnone : errOf f = none := by simp [errOf, hrf]
      simp only [List.foldl_cons, uploadStep, hrf]
      rw [ih, List.filterMap_cons_none hnone]
    | error e =>
      have hsome : errOf f = some e := by simp [errOf, hrf]
      simp only [List.foldl_cons, uploadStep, hrf]
      rw [ih, List.filterMap_cons_some hsome]
      simp

/-- Inserting a fresh key into the dict appends the entry. -/
theorem dictInsert_fresh : ∀ (d : List (String × Table)) (k : String)
    (v : Table), k ∉ d.map Prod.fst → dictInsert d k v = d ++ [(k, v)] := by
  intro d
  induction d with
  | nil => intro k v _; rfl
  | cons p rest ih =>
    intro k v h
    simp only [List.map_cons, List.mem_cons] at h
    push_neg at h
    have hne : ¬ p.1 = k := fun he => h.1 he.symm
    simp only [dictInsert]
    rw [if_neg hne, ih k v h.2, List.cons_append]

/-- With pairwise-distinct file names none of which collide with the
accumulated dict, the upload loop appends exactly the successfully parsed
entries, in file order. -/
theorem foldl_uploadStep_data : ∀ (files : List RawFile)
    (acc : List (String × Table) × List String),
    (files.map RawFile.name).Nodup →
    (∀ f ∈ files, f.name ∉ acc.1.map Prod.fst) →
    (files.foldl uploadStep acc).1 = acc.1 ++ files.filterMap okEntry := by
  intro files
  induction files with
  | nil => intro acc _ _; simp
  | cons f rest ih =>
    intro acc hnd hacc
    have hnd' : (rest.map RawFile.name).Nodup :=
      (List.nodup_cons.mp hnd).2
    have hfresh : f.name ∉ rest.map RawFile.name :=
      (List.nodup_cons.mp hnd).1
    cases hrf : read_file f with
    | ok df =>
      have hok : okEntry f = some (f.name, df) := by simp [okEntry, hrf]
      simp only [List.foldl_cons, uploadStep, hrf]
      have hnew : dictInsert acc.1 f.name df = acc.1 ++ [(f.name, df)] :=
        dictInsert_fresh acc.1 f.name df
          (hacc f (List.mem_cons_self f rest))
      rw [hnew, ih (acc.1 ++ [(f.name, df)], acc.2) hnd'
        (by
          intro g hg
          simp only [List.map_append, List.mem_append]
          push_neg
          refine ⟨hacc g (List.mem_cons_of_mem f hg), ?_⟩
          simp only [List.map_cons, List.map_nil, List.mem_singleton]
          intro he
          exact hfresh (he ▸ List.mem_map_of_mem RawFile.name hg)),
        List.filterMap_cons_some hok]
      simp
    | error e =>
      have hnone : okEntry f = none := by simp [okEntry, hrf]
      simp only [List.foldl_cons, uploadStep, hrf]
      rw [ih (acc.1, acc.2 ++ [e]) hnd'
        (fun g hg => hacc g (List.mem_cons_of_mem f hg)),
        List.filterMap_cons_none hnone]

/-- The parsed-tables mapping is exactly the successful entries in file
order. -/
theorem processUploads_data (files : List RawFile)
    (hnd : (files.map RawFile.name).Nodup) :
    (processUploads files).1 = files.filterMap okEntry := by
  simpa using foldl_uploadStep_data files ([], []) hnd (by simp)

/-- The error list is exactly the failing files' messages in file order. -/
theorem processUploads_errors (files : List RawFile) :
    (processUploads files).2 = files.filterMap errOf := by
  simpa using foldl_uploadStep_errors files ([], [])

/-- A successful entry records the file's own name and parsed table. -/
theorem okEntry_eq_some {g : RawFile} {p : String × Table}
    (h : okEntry g = some p) : p.1 = g.name ∧ read_file g = .ok p.2 := by
  cases hrg : read_file g with
  | ok df =>
    simp only [okEntry, hrg, Option.some_inj] at h
    rw [← h]
    exact ⟨rfl, by simp [hrg]⟩
  | error e => simp [okEntry, hrg] at h

/-- The stored keys are drawn from the uploaded file names. -/
theorem okEntry_keys_sublist : ∀ files : List RawFile,
    List.Sublist ((files.filterMap okEntry).map Prod.fst)
      (files.map RawFile.name) := by
  intro files
  induction files with
  | nil => simp
  | cons f rest ih =>
    cases hrf : read_file f with
    | ok df =>
      have hok : okEntry f = some (f.name, df) := by simp [okEntry, hrf]
      rw [List.filterMap_cons_some hok]
      simp only [List.map_cons]
      exact List.Sublist.cons₂ f.name ih
    | error e =>
      have hnone : okEntry f = none := by simp [okEntry, hrf]
      rw [List.filterMap_cons_none hnone]
      simp only [List.map_cons]
      exact List.Sublist.cons f.name ih

/-- With pairwise-distinct file names the stored keys are
duplicate-free. -/
theorem processUploads_keys_nodup (files : List RawFile)
    (hnd : (files.map RawFile.name).Nodup) :
    ((processUploads files).1.map Prod.fst).Nodup := by
  rw [processUploads_data files hnd]
  exact hnd.sublist (okEntry_keys_sublist files)

/-- A file whose read fails is never stored in the parsed-tables
mapping. -/
theorem name_not_mem_data_of_error (files : List RawFile)
    (hnd : (files.map RawFile.name).Nodup) {f : RawFile} (hf : f ∈ files)
    {e : String} (hrf : read_file f = .error e) :
    f.name ∉ (processUploads files).1.map Prod.fst := by
  rw [processUploads_data files hnd]
  intro hmem
  obtain ⟨p, hp, hpn⟩ := List.mem_map.mp hmem
  obtain ⟨g, hg, hge⟩ := List.mem_filterMap.mp hp
  obtain ⟨hname, hok⟩ := okEntry_eq_some hge
  have : g = f :=
    List.inj_on_of_nodup_map hnd hg hf (by rw [← hname, hpn])
  rw [this, hrf] at hok
  exact Except.noConfusion hok

/-- C7: during ingest, a file whose read fails has its error recorded and
is excluded from the parsed set, every file whose read succeeds is stored
regardless of other files' failures (no fail-fast), and the reported error
list is exactly the failing files' messages in file order — nothing is
silently swallowed. -/
theorem ingest_isolates_per_file_errors (files : List RawFile)
    (hnd : (files.map RawFile.name).Nodup) :
    (processUploads files).2 = files.filterMap errOf ∧
    (∀ f ∈ files, ∀ e, read_file f = .error e →
      e ∈ (processUploads files).2 ∧
      f.name ∉ (processUploads files).1.map Prod.fst) ∧
    (∀ f ∈ files, ∀ df, read_file f = .ok df →
      (f.name, df) ∈ (processUploads files).1) := by
  refine ⟨processUploads_errors files, ?_, ?_⟩
  · intro f hf e hrf
    refine ⟨?_, name_not_mem_data_of_error files hnd hf hrf⟩
    rw [processUploads_errors files]
    exact List.mem_filterMap.mpr ⟨f, hf, by simp [errOf, hrf]⟩
  · intro f hf df hrf
    rw [processUploads_data files hnd]
    exact List.mem_filterMap.mpr ⟨f, hf, by simp [okEntry, hrf]⟩

/-- Witness for C7: among a good CSV, a corrupt CSV and an unsupported
`.txt`, the two bad files are reported in order, the good file is stored,
and the corrupt file is excluded. -/
theorem ingest_isolates_per_file_errors_witness :
    (processUploads [⟨"a.csv", .ok tblIdName⟩, ⟨"bad.csv", .error "boom"⟩,
        ⟨"c.txt", .ok tblIdValue⟩]).2 =
      ["Error reading bad.csv: boom", "Unsupported file format: c.txt"] ∧
    ("a.csv", tblIdName) ∈ (processUploads [⟨"a.csv", .ok tblIdName⟩,
        ⟨"bad.csv", .error "boom"⟩, ⟨"c.txt", .ok tblIdValue⟩]).1 ∧
    "bad.csv" ∉ (processUploads [⟨"a.csv", .ok tblIdName⟩,
        ⟨"bad.csv", .error "boom"⟩,
        ⟨"c.txt", .ok tblIdValue⟩]).1.map Prod.fst := by
  have h := ingest_isolates_per_file_errors
    [⟨"a.csv", .ok tblIdName⟩, ⟨"bad.csv", .error "boom"⟩,
      ⟨"c.txt", .ok tblIdValue⟩] (by decide)
  refine ⟨h.1.trans (by decide), ?_, ?_⟩
  · exact h.2.2 ⟨"a.csv", .ok tblIdName⟩ (by simp) tblIdName (by decide)
  · exact (h.2.1 ⟨"bad.csv", .error "boom"⟩ (by simp)
      "Error reading bad.csv: boom" (by decide)).2

/-! ### Partition structure of the grouping -/

/-- Inserting a filename never creates an empty group. -/
theorem insertGroup_nonempty : ∀ (gs : List (ColumnSignature × List String))
    (sig : ColumnSignature) (n : String),
    (∀ g ∈ gs, g.2 ≠ []) → ∀ g ∈ insertGroup gs sig n, g.2 ≠ [] := by
  intro gs
  induction gs with
  | nil =>
    intro sig n _ g hg
    simp only [insertGroup, List.mem_singleton] at hg
    simp [hg]
  | cons h rest ih =>
    intro sig n hne g hg
    by_cases hk : h.1 = sig
    · simp only [insertGroup, if_pos hk, List.mem_cons] at hg
      rcases hg with hg | hg
      · simp [hg]
      · exact hne g (List.mem_cons_of_mem h hg)
    · simp only [insertGroup, if_neg hk, List.mem_cons] at hg
      rcases hg with hg | hg
      · exact hne g (hg ▸ List.mem_cons_self h rest)
      · exact ih sig n (fun g' hg' => hne g' (List.mem_cons_of_mem h hg'))
          g hg

/-- Every group produced by the grouping fold is non-empty. -/
theorem foldl_insertGroup_nonempty : ∀ (d : List (String × Table))
    (gs : List (ColumnSignature × List String)),
    (∀ g ∈ gs, g.2 ≠ []) →
    ∀ g ∈ d.foldl (fun gs p => insertGroup gs (entrySignature p) p.1) gs,
      g.2 ≠ [] := by
  intro d
  induction d with
  | nil => intro gs h; exact h
  | cons p rest ih =>
    intro gs h
    simp only [List.foldl_cons]
    exact ih (insertGroup gs (entrySignature p) p.1)
      (insertGroup_nonempty gs (entrySignature p) p.1 h)

/-- Effect of one insertion on a key's file list: the filename lands in
exactly the group of its signature. -/
theorem groupLookup_insertGroup :
    ∀ (gs : List (ColumnSignature × List String))
    (s sig : ColumnSignature) (n : String),
    groupLookup (insertGroup gs s n) sig =
      groupLookup gs sig ++ (if s = sig then [n] else []) := by
  intro gs
  induction gs with
  | nil =>
    intro s sig n
    by_cases h : s = sig <;> simp [insertGroup, groupLookup, h]
  | cons g rest ih =>
    intro s sig n
    by_cases hgs : g.1 = s
    · by_cases hgsig : g.1 = sig
      · have : s = sig := by rw [← hgs, hgsig]
        simp [insertGroup, groupLookup, hgs, hgsig, this]
      · have : ¬ s = sig := fun h => hgsig (h ▸ hgs)
        simp [insertGroup, groupLookup, hgs, hgsig, this]
    · by_cases hgsig : g.1 = sig
      · have h2 : ¬ sig = s := fun h => hgs (hgsig.trans h)
        have h3 : ¬ s = sig := fun h => h2 h.symm
        simp [insertGroup, groupLookup, hgs, hgsig, h2, h3]
      · simp [insertGroup, groupLookup, hgs, hgsig, ih]

/-- The grouping fold sends each entry's filename to the group of its
signature, keeping first-seen order. -/
theorem groupLookup_foldl : ∀ (d : List (String × Table))
    (gs : List (ColumnSignature × List String)) (sig : ColumnSignature),
    groupLookup
        (d.foldl (fun gs p => insertGroup gs (entrySignature p) p.1) gs)
        sig =
      groupLookup gs sig ++
        (d.filter fun p => decide (entrySignature p = sig)).map Prod.fst := by
  intro d
  induction d with
  | nil => intro gs sig; simp
  | cons p rest ih =>
    intro gs sig
    simp only [List.foldl_cons]
    rw [ih, groupLookup_insertGroup]
    by_cases h : entrySignature p = sig
    · simp [List.filter_cons, h]
    · simp [List.filter_cons, h]

/-- The files of the group keyed `sig` are exactly the stored files whose
table has signature `sig`, in storage order. -/
theorem groupLookup_group_files (d : List (String × Table))
    (sig : ColumnSignature) :
    groupLookup (group_files_by_columns d) sig =
      (d.filter fun p => decide (entrySignature p = sig)).map Prod.fst := by
  simpa using groupLookup_foldl d [] sig

/-- Inserting a filename either reuses an existing key or appends the new
key at the end. -/
theorem insertGroup_keys : ∀ (gs : List (ColumnSignature × List String))
    (sig : ColumnSignature) (n : String),
    (insertGroup gs sig n).map Prod.fst =
      if sig ∈ gs.map Prod.fst then gs.map Prod.fst
      else gs.map Prod.fst ++ [sig] := by
  intro gs
  induction gs with
  | nil => intro sig n; simp [insertGroup]
  | cons g rest ih =>
    intro sig n
    by_cases hk : g.1 = sig
    · simp [insertGroup, hk]
    · have hne : ¬ sig = g.1 := fun h => hk h.symm
      simp only [insertGroup, if_neg hk, List.map_cons, ih]
      by_cases hm : sig ∈ rest.map Prod.fst
      · simp [hm, List.mem_cons, hne]
      · simp [hm, List.mem_cons, hne]

/-- The grouping fold keeps its keys duplicate-free. -/
theorem foldl_insertGroup_keys_nodup : ∀ (d : List (String × Table))
    (gs : List (ColumnSignature × List String)),
    (gs.map Prod.fst).Nodup →
    ((d.foldl (fun gs p => insertGroup gs (entrySignature p) p.1) gs).map
        Prod.fst).Nodup := by
  intro d
  induction d with
  | nil => intro gs h; exact h
  | cons p rest ih =>
    intro gs h
    simp only [List.foldl_cons]
    refine ih _ ?_
    rw [insertGroup_keys]
    by_cases hmem : entrySignature p ∈ gs.map Prod.fst
    · simpa [hmem] using h
    · rw [if_neg hmem]
      refine h.append (List.nodup_singleton _) ?_
      intro x hx hmem1
      simp only [List.mem_singleton] at hmem1
      exact hmem (hmem1 ▸ hx)

/-- The grouping's signature keys are duplicate-free. -/
theorem group_files_keys_nodup (d : List (String × Table)) :
    ((group_files_by_columns d).map Prod.fst).Nodup :=
  foldl_insertGroup_keys_nodup d [] (by simp)

/-- With duplicate-free keys, looking up a member group's key returns its
file list. -/
theorem groupLookup_of_mem : ∀ (gs : List (ColumnSignature × List String)),
    (gs.map Prod.fst).Nodup →
    ∀ g ∈ gs, groupLookup gs g.1 = g.2 := by
  intro gs
  induction gs with
  | nil => intro _ g hg; simp at hg
  | cons h rest ih =>
    intro hnd g hg
    rcases List.mem_cons.mp hg with hg | hg
    · simp [groupLookup, hg]
    · have hne : ¬ h.1 = g.1 := by
        intro he
        have : h.1 ∈ rest.map Prod.fst :=
          he ▸ List.mem_map_of_mem Prod.fst hg
        exact (List.nodup_cons.mp (by simpa using hnd)).1 this
      simp only [groupLookup, if_neg hne]
      exact ih (List.nodup_cons.mp (by simpa using hnd)).2 g hg

/-- A non-empty lookup result is the file list of a group present in the
grouping with that key. -/
theorem groupLookup_mem : ∀ (gs : List (ColumnSignature × List String))
    (sig : ColumnSignature), groupLookup gs sig ≠ [] →
    ∃ g ∈ gs, g.1 = sig ∧ g.2 = groupLookup gs sig := by
  intro gs
  induction gs with
  | nil => intro sig h; simp [groupLookup] at h
  | cons g rest ih =>
    intro sig h
    by_cases hk : g.1 = sig
    · exact ⟨g, List.mem_cons_self g rest, hk, by simp [groupLookup, hk]⟩
    · simp only [groupLookup, if_neg hk] at h ⊢
      obtain ⟨g', hg', hk', he'⟩ := ih sig h
      exact ⟨g', List.mem_cons_of_mem g hg', hk', he'⟩

/-- Every filename in a group comes from a stored entry whose table has
the group's signature. -/
theorem mem_group_entry (d : List (String × Table))
    {g : ColumnSignature × List String}
    (hg : g ∈ group_files_by_columns d) {x : String} (hx : x ∈ g.2) :
    ∃ p ∈ d, p.1 = x ∧ entrySignature p = g.1 := by
  have hlook := groupLookup_of_mem (group_files_by_columns d)
    (group_files_keys_nodup d) g hg
  rw [groupLookup_group_files] at hlook
  rw [← hlook] at hx
  obtain ⟨p, hpf, hpx⟩ := List.mem_map.mp hx
  have hpd := List.mem_filter.mp hpf
  exact ⟨p, hpd.1, hpx, of_decide_eq_true hpd.2⟩

/-- C3: the computed groups partition the successfully parsed files —
every group is non-empty, distinct groups share no file, a file sits in
some group exactly when it was parsed and stored, and a file whose read
failed is in no group. -/
theorem grouping_partitions_parsed_files (files : List RawFile)
    (hnd : (files.map RawFile.name).Nodup) :
    (∀ g ∈ group_files_by_columns (processUploads files).1, g.2 ≠ []) ∧
    List.Pairwise (fun g h => ∀ x ∈ g.2, x ∉ h.2)
      (group_files_by_columns (processUploads files).1) ∧
    (∀ x, (∃ g ∈ group_files_by_columns (processUploads files).1, x ∈ g.2)
      ↔ x ∈ (processUploads files).1.map Prod.fst) ∧
    (∀ f ∈ files, ∀ e, read_file f = .error e →
      ∀ g ∈ group_files_by_columns (processUploads files).1,
        f.name ∉ g.2) := by
  have hk : ((processUploads files).1.map Prod.fst).Nodup :=
    processUploads_keys_nodup files hnd
  have hmemiff : ∀ x,
      (∃ g ∈ group_files_by_columns (processUploads files).1, x ∈ g.2) ↔
      x ∈ (processUploads files).1.map Prod.fst := by
    intro x
    constructor
    · rintro ⟨g, hg, hx⟩
      obtain ⟨p, hp, hpx, _⟩ := mem_group_entry _ hg hx
      exact hpx ▸ List.mem_map_of_mem Prod.fst hp
    · intro hx
      obtain ⟨p, hp, hpx⟩ := List.mem_map.mp hx
      have hxlook : x ∈ groupLookup
          (group_files_by_columns (processUploads files).1)
          (entrySignature p) := by
        rw [groupLookup_group_files]
        exact List.mem_map.mpr ⟨p, List.mem_filter.mpr ⟨hp, by simp⟩, hpx⟩
      have hne : groupLookup
          (group_files_by_columns (processUploads files).1)
          (entrySignature p) ≠ [] := by
        intro h
        rw [h] at hxlook
        simp at hxlook
      obtain ⟨g, hg, _, he⟩ := groupLookup_mem _ _ hne
      exact ⟨g, hg, he ▸ hxlook⟩
  refine ⟨foldl_insertGroup_nonempty _ [] (by simp), ?_, hmemiff, ?_⟩
  · have hpair : List.Pairwise (fun g h => g.1 ≠ h.1)
        (group_files_by_columns (processUploads files).1) :=
      List.pairwise_map.mp (group_files_keys_nodup _)
    refine hpair.imp_of_mem ?_
    intro g h hg hh hne x hxg hxh
    obtain ⟨p, hp, hpx, hps⟩ := mem_group_entry _ hg hxg
    obtain ⟨q, hq, hqx, hqs⟩ := mem_group_entry _ hh hxh
    have hpq : p = q :=
      List.inj_on_of_nodup_map hk hp hq (by rw [hpx, hqx])
    exact hne (by rw [← hps, ← hqs, hpq])
  · intro f hf e hrf g hg hmem
    exact name_not_mem_data_of_error files hnd hf hrf
      ((hmemiff f.name).mp ⟨g, hg, hmem⟩)

/-- Witness for C3: with two well-formed files and one corrupt file, the
corrupt file's name is absent from the first computed group. -/
theorem grouping_partitions_parsed_files_witness :
    "bad.csv" ∉ (group_files_by_columns (processUploads
      [⟨"a.csv", .ok tblIdName⟩, ⟨"c.csv", .ok tblIdValue⟩,
        ⟨"bad.csv", .error "boom"⟩]).1).headI.2 := by
  have h := grouping_partitions_parsed_files
    [⟨"a.csv", .ok tblIdName⟩, ⟨"c.csv", .ok tblIdValue⟩,
      ⟨"bad.csv", .error "boom"⟩] (by decide)
  exact h.2.2.2 ⟨"bad.csv", .error "boom"⟩ (by simp)
    "Error reading bad.csv: boom" (by decide) _ (by decide)

/-- Membership in the excluded-files accumulation. -/
theorem mem_excluded_foldl : ∀ (gs : List (ColumnSignature × List String))
    (sel : ColumnSignature) (acc : List String) (x : String),
    (x ∈ gs.foldl (fun acc g => if g.1 = sel then acc else acc ++ g.2) acc)
      ↔ x ∈ acc ∨ ∃ g ∈ gs, ¬ g.1 = sel ∧ x ∈ g.2 := by
  intro gs
  induction gs with
  | nil => intro sel acc x; simp
  | cons g rest ih =>
    intro sel acc x
    simp only [List.foldl_cons]
    by_cases hk : g.1 = sel
    · rw [if_pos hk, ih]
      constructor
      · rintro (hx | hx)
        · exact Or.inl hx
        · exact Or.inr (by
            obtain ⟨g', hg', hne', hx'⟩ := hx
            exact ⟨g', List.mem_cons_of_mem g hg', hne', hx'⟩)
      · rintro (hx | ⟨g', hg', hne', hx'⟩)
        · exact Or.inl hx
        · rcases List.mem_cons.mp hg' with he | hg''
          · exact absurd (he ▸ hk) hne'
          · exact Or.inr ⟨g', hg'', hne', hx'⟩
    · rw [if_neg hk, ih]
      constructor
      · rintro (hx | hx)
        · rcases List.mem_append.mp hx with hx' | hx'
          · exact Or.inl hx'
          · exact Or.inr ⟨g, List.mem_cons_self g rest, hk, hx'⟩
        · exact Or.inr (by
            obtain ⟨g', hg', hne', hx'⟩ := hx
            exact ⟨g', List.mem_cons_of_mem g hg', hne', hx'⟩)
      · rintro (hx | ⟨g', hg', hne', hx'⟩)
        · exact Or.inl (List.mem_append.mpr (Or.inl hx))
        · rcases List.mem_cons.mp hg' with he | hg''
          · exact Or.inl (List.mem_append.mpr (Or.inr (he ▸ hx')))
          · exact Or.inr ⟨g', hg'', hne', hx'⟩

/-- A file is excluded exactly when it lies in a group whose signature is
not the selected one. -/
theorem mem_excluded_files_iff (gs : List (ColumnSignature × List String))
    (sel : ColumnSignature) (x : String) :
    x ∈ excluded_files gs sel ↔ ∃ g ∈ gs, ¬ g.1 = sel ∧ x ∈ g.2 := by
  simpa using mem_excluded_foldl gs sel [] x

/-- C4: confirming the selection of a group leaves the working set equal
to exactly that group's files — the files of every other group are deleted
from the stored mapping, not hidden — and sets the session merge-ready. -/
theorem confirm_keeps_exactly_selected_group (s : SessionState)
    (sel : ColumnSignature)
    (hgroups : s.column_groups =
      group_files_by_columns s.uploaded_files_data)
    (hk : (s.uploaded_files_data.map Prod.fst).Nodup)
    (_hsel : sel ∈ s.column_groups.map Prod.fst) :
    (confirmSelection s sel).uploaded_files_data.map Prod.fst =
      groupLookup s.column_groups sel ∧
    (confirmSelection s sel).merge_ready = true := by
  refine ⟨?_, rfl⟩
  show (s.uploaded_files_data.filter
      (fun p => decide (p.1 ∉ excluded_files s.column_groups sel))).map
      Prod.fst = groupLookup s.column_groups sel
  have hcongr : s.uploaded_files_data.filter
      (fun p => decide (p.1 ∉ excluded_files s.column_groups sel)) =
      s.uploaded_files_data.filter
        (fun p => decide (entrySignature p = sel)) := by
    apply List.filter_congr
    intro p hp
    apply decide_eq_decide.mpr
    constructor
    · intro hnot
      by_contra hne
      have hxlook : p.1 ∈ groupLookup
          (group_files_by_columns s.uploaded_files_data)
          (entrySignature p) := by
        rw [groupLookup_group_files]
        exact List.mem_map.mpr ⟨p, List.mem_filter.mpr ⟨hp, by simp⟩, rfl⟩
      have hlne : groupLookup
          (group_files_by_columns s.uploaded_files_data)
          (entrySignature p) ≠ [] := by
        intro h
        rw [h] at hxlook
        simp at hxlook
      obtain ⟨g, hg, hgk, hge⟩ := groupLookup_mem _ _ hlne
      refine hnot (((mem_excluded_files_iff s.column_groups sel p.1).mpr
        ⟨g, ?_, ?_, hge ▸ hxlook⟩))
      · rw [hgroups]; exact hg
      · rw [hgk]; exact hne
    · intro hsig hexc
      obtain ⟨g, hg, hgne, hx⟩ :=
        (mem_excluded_files_iff s.column_groups sel p.1).mp hexc
      rw [hgroups] at hg
      obtain ⟨q, hq, hqx, hqs⟩ := mem_group_entry _ hg hx
      have hpq : q = p := List.inj_on_of_nodup_map hk hq hp hqx
      exact hgne (by rw [← hqs, hpq, hsig])
  rw [hcongr, ← groupLookup_group_files, ← hgroups]

/-- Witness for C4 at the spec's concrete scenario: selecting `c.csv`'s
signature and confirming leaves exactly `c.csv` in the working set. -/
theorem confirm_keeps_exactly_selected_group_witness :
    (confirmSelection
      { uploaded_files_data := [("a.csv", tblIdName), ("c.csv", tblIdValue)],
        column_groups := group_files_by_columns
          [("a.csv", tblIdName), ("c.csv", tblIdValue)],
        selected_group := some ["id", "value"], files_to_delete := [],
        merge_ready := false } ["id", "value"]).uploaded_files_data.map
      Prod.fst = ["c.csv"] ∧
    (confirmSelection
      { uploaded_files_data := [("a.csv", tblIdName), ("c.csv", tblIdValue)],
        column_groups := group_files_by_columns
          [("a.csv", tblIdName), ("c.csv", tblIdValue)],
        selected_group := some ["id", "value"], files_to_delete := [],
        merge_ready := false } ["id", "value"]).merge_ready = true := by
  have h := confirm_keeps_exactly_selected_group
    { uploaded_files_data := [("a.csv", tblIdName), ("c.csv", tblIdValue)],
      column_groups := group_files_by_columns
        [("a.csv", tblIdName), ("c.csv", tblIdValue)],
      selected_group := some ["id", "value"], files_to_delete := [],
      merge_ready := false } ["id", "value"] rfl (by decide) (by decide)
  exact ⟨h.1.trans (by decide), h.2⟩

/-- C8: when ingest finds exactly one column-structure group, the session
is marked merge-ready with that group's signature auto-selected, with no
user action; with more than one group the session is not merge-ready. -/
theorem single_group_auto_merge_ready (s : SessionState)
    (files : List RawFile) (hne : (processUploads files).1 ≠ []) :
    ((group_files_by_columns (processUploads files).1).length = 1 →
      (ingest s files).1.merge_ready = true ∧
      (ingest s files).1.selected_group =
        some (group_files_by_columns (processUploads files).1).headI.1) ∧
    ((group_files_by_columns (processUploads files).1).length ≠ 1 →
      (ingest s files).1.merge_ready = false) := by
  have hemp : (processUploads files).1.isEmpty = false := by
    simpa using hne
  constructor
  · intro h1
    simp [ingest, hemp, h1]
  · intro h1
    simp [ingest, hemp, h1]

/-- Witness for C8: one shared structure auto-selects and is merge-ready;
two structures are not. -/
theorem single_group_auto_merge_ready_witness :
    (ingest initState [⟨"a.csv", .ok tblIdName⟩,
      ⟨"b.csv", .ok tblNameId⟩]).1.merge_ready = true ∧
    (ingest initState [⟨"a.csv", .ok tblIdName⟩,
      ⟨"c.csv", .ok tblIdValue⟩]).1.merge_ready = false := by
  refine ⟨?_, ?_⟩
  · exact ((single_group_auto_merge_ready initState
      [⟨"a.csv", .ok tblIdName⟩, ⟨"b.csv", .ok tblNameId⟩]
      (by decide)).1 (by decide)).1
  · exact (single_group_auto_merge_ready initState
      [⟨"a.csv", .ok tblIdName⟩, ⟨"c.csv", .ok tblIdValue⟩]
      (by decide)).2 (by decide)
